import Mathlib

/-!
Verification of the ScalesOps feature-flag dependency-graph engine.

This file is a shallow embedding of the engine found in
`backend/featureflag/` (models/featureflag.py, models/dependency.py,
serializers.py, api.py, tasks.py) together with proofs about it.

Modelling conventions:
* A Django `FeatureFlag` row becomes the structure `FeatureFlag`
  (primary key `pk`, unique `title`, boolean `is_enabled`).
* The dependency table becomes the list `Graph.edges` of
  `(dependent_flag pk, source_flag pk)` pairs kept in insertion order,
  matching the queryset iteration order the tests rely on.
* Python's unbounded recursion is modelled with an explicit fuel
  argument.  All call sites use a fuel that is proved (or checked by
  `decide` on concrete inputs) to be large enough; dedicated lemmas show
  the result is fuel-independent once the fuel exceeds the number of
  flags, which is the termination argument of the original code.
* Mutated Python sets/lists (`visited`, `path_list`, `blocking_list`)
  are threaded explicitly through the recursion.
-/

structure FeatureFlag where
  pk : Nat
  title : String
  is_enabled : Bool
deriving DecidableEq

structure Graph where
  flags : List FeatureFlag
  edges : List (Nat × Nat)
deriving DecidableEq

/-- Model of `FeatureFlag.objects.get(pk=...)`. -/
def findFlag (g : Graph) (pk : Nat) : Option FeatureFlag :=
  g.flags.find? (fun f => f.pk = pk)

/-- Model of `flag.dependency_rules_as_dependent.all()` followed by
`rule.source_flag`: the source flags of all edges whose dependent is `pk`,
in edge-insertion order. -/
def sourcesOf (g : Graph) (pk : Nat) : List FeatureFlag :=
  (g.edges.filter (fun e => e.1 = pk)).filterMap (fun e => findFlag g e.2)

/-- Well-formedness of the store, as guaranteed by the Django schema:
primary keys unique, titles unique (`unique=True`), foreign keys resolve,
and `(dependent, source)` pairs unique (`unique_together`). -/
def WF (g : Graph) : Prop :=
  (g.flags.map FeatureFlag.pk).Nodup ∧
  (g.flags.map FeatureFlag.title).Nodup ∧
  (∀ e ∈ g.edges, e.1 ∈ g.flags.map FeatureFlag.pk ∧
    e.2 ∈ g.flags.map FeatureFlag.pk) ∧
  g.edges.Nodup

instance (g : Graph) : Decidable (WF g) := by
  unfold WF; infer_instance

/-- Reachability along dependency edges: `Reach g a b` holds when flag `a`
depends on flag `b` directly or transitively (or `a = b`). -/
inductive Reach (g : Graph) : Nat → Nat → Prop
  | refl (a : Nat) : Reach g a a
  | step {a b c : Nat} : (a, b) ∈ g.edges → Reach g b c → Reach g a c

/-- The spec's acyclicity invariant: no flag transitively depends on itself
through an edge. -/
def Acyclic (g : Graph) : Prop :=
  ∀ e ∈ g.edges, ¬ Reach g e.2 e.1

/-- Flag `b` is a direct or transitive dependency of flag `a` (at least one
edge is taken). -/
def TransDep (g : Graph) (a b : Nat) : Prop :=
  ∃ c, (a, c) ∈ g.edges ∧ Reach g c b

/-- Model of `FeatureFlag._check_dependencies_recursively`: `visited` holds
flag titles on the current evaluation path; each source must be enabled and
recursively satisfied.  The recursive call receives a copy of the caller's
visited set extended with the caller's title, exactly as
`visited_flags.copy()` does after `visited_flags.add(self.title)`. -/
def check_dependencies_recursively (g : Graph) :
    Nat → FeatureFlag → List String → Bool
  | 0, _, _ => false
  | fuel + 1, f, visited =>
    if f.title ∈ visited then false
    else
      (sourcesOf g f.pk).all (fun s =>
        s.is_enabled && check_dependencies_recursively g fuel s (f.title :: visited))

/-- Model of `FeatureFlag.can_be_active`. -/
def can_be_active (g : Graph) (f : FeatureFlag) : Bool :=
  check_dependencies_recursively g (g.flags.length + 1) f []

/-- Model of `FeatureFlag.is_active`. -/
def is_active (g : Graph) (f : FeatureFlag) : Bool :=
  f.is_enabled && can_be_active g f

/-- Model of `Dependency._find_path_and_detect_cycle`.  The Python method
mutates a `visited` set of primary keys (shared across all branches of the
search) and a `path_list` of flag objects; both are threaded through the
result here.  The loop over `current_node.dependency_rules_as_dependent`
becomes a fold whose accumulator carries an early-exit flag, the visited
set and the path; `path_list.pop()` on overall failure becomes `dropLast`. -/
def find_path_and_detect_cycle (g : Graph) :
    Nat → FeatureFlag → FeatureFlag → List Nat → List FeatureFlag →
      Bool × List Nat × List FeatureFlag
  | 0, _, _, visited, path => (false, visited, path)
  | fuel + 1, current, target, visited, path =>
    if current.pk = target.pk then (true, visited, path ++ [current])
    else if current.pk ∈ visited then (false, visited, path)
    else
      let r := (sourcesOf g current.pk).foldl
        (fun acc s =>
          if acc.1 then acc
          else find_path_and_detect_cycle g fuel s target acc.2.1 acc.2.2)
        (false, current.pk :: visited, path ++ [current])
      if r.1 then r else (false, r.2.1, r.2.2.dropLast)

/-- The body of the dependency loop inside
`Dependency._find_path_and_detect_cycle`, as a fold step: skip once a
cycle has been found, otherwise search from the next source flag. -/
def fp_step (g : Graph) (fuel : Nat) (target : FeatureFlag)
    (acc : Bool × List Nat × List FeatureFlag) (s : FeatureFlag) :
    Bool × List Nat × List FeatureFlag :=
  if acc.1 then acc
  else find_path_and_detect_cycle g fuel s target acc.2.1 acc.2.2

/-- Error taxonomy of the engine, with the payloads the source attaches:
the cycle error message carries the rendered title path, the
unmet-dependencies message carries the blocking flag titles. -/
inductive Err
  | duplicateTitle
  | duplicateEdge
  | unknownSourceFlag
  | notFound
  | selfDependency
  | cycleDetected (path : List String)
  | unmetDependencies (blockers : List String)
deriving DecidableEq

/-- Model of `Dependency.clean`: reject a self-dependency immediately,
then run the cycle search from `source_flag` looking for `dependent_flag`;
on detection build the title path `dependent :: path_list` that the
`ValidationError` message renders with " -> ". -/
def dependency_clean (g : Graph) (dep src : FeatureFlag) : Option Err :=
  if dep.pk = src.pk then some .selfDependency
  else
    let r := find_path_and_detect_cycle g (g.flags.length + 2) src dep [] []
    if r.1 then
      if r.2.2.isEmpty then none
      else some (.cycleDetected (dep.title :: r.2.2.map FeatureFlag.title))
    else none

/-- Rendering of the cycle path in the `ValidationError` message:
`" -> ".join(cycle_str_parts)`. -/
def render_cycle (parts : List String) : String :=
  String.intercalate " -> " parts

/-- Model of `Dependency.save`'s `full_clean`: `clean` (self-dependency and
cycle checks) followed by the `unique_together` validation. -/
def dependency_full_clean (g : Graph) (dep src : FeatureFlag) : Option Err :=
  match dependency_clean g dep src with
  | some e => some e
  | none => if (dep.pk, src.pk) ∈ g.edges then some .duplicateEdge else none

/-- Model of the dependency-creation endpoint (`DependencySerializer.create`
driving `Dependency.save`): validate, and only on success insert the edge.
A validation failure leaves the store untouched. -/
def add_dependency (g : Graph) (dep src : FeatureFlag) :
    Except Err Unit × Graph :=
  match dependency_full_clean g dep src with
  | some e => (.error e, g)
  | none => (.ok (), { g with edges := g.edges ++ [(dep.pk, src.pk)] })

/-- Model of the dependency list endpoint: all edges rendered as
`(dependent title, source title)`, ordered by that pair. -/
def list_dependencies (g : Graph) : List (String × String) :=
  (g.edges.filterMap (fun e =>
    match findFlag g e.1, findFlag g e.2 with
    | some d, some s => some (d.title, s.title)
    | _, _ => none)).mergeSort
    (fun a b => a.1 < b.1 || (a.1 = b.1 && a.2 ≤ b.2))

/-- Model of `FeatureFlag._find_blocking_dependencies`: a shared `visited`
set of primary keys and an appended `blocking_list`.  A disabled source is
appended (without touching `visited`); an enabled but blocked source is
recursed into. -/
def find_blocking_dependencies (g : Graph) :
    Nat → FeatureFlag → List Nat → List FeatureFlag →
      List Nat × List FeatureFlag
  | 0, _, visited, blocking => (visited, blocking)
  | fuel + 1, f, visited, blocking =>
    if f.pk ∈ visited then (visited, blocking)
    else
      (sourcesOf g f.pk).foldl
        (fun acc s =>
          if !s.is_enabled then (acc.1, acc.2 ++ [s])
          else if !can_be_active g s then
            find_blocking_dependencies g fuel s acc.1 acc.2
          else acc)
        (f.pk :: visited, blocking)

/-- The body of the dependency loop inside
`FeatureFlag._find_blocking_dependencies`, as a fold step over the
`(visited, blocking_list)` state. -/
def fb_step (g : Graph) (fuel : Nat)
    (acc : List Nat × List FeatureFlag) (s : FeatureFlag) :
    List Nat × List FeatureFlag :=
  if !s.is_enabled then (acc.1, acc.2 ++ [s])
  else if !can_be_active g s then
    find_blocking_dependencies g fuel s acc.1 acc.2
  else acc

/-- Model of `FeatureFlag.clean` for a flag that already has a primary key:
enabling a flag whose dependencies are not satisfiable raises a
`ValidationError` whose message lists the blocking titles collected by
`_find_blocking_dependencies`.  Returns the blocking-title list on failure. -/
def featureflag_clean (g : Graph) (f : FeatureFlag) : Option (List String) :=
  if f.is_enabled && !can_be_active g f then
    some ((find_blocking_dependencies g (g.flags.length + 2) f [] []).2.map
      FeatureFlag.title)
  else none

/-- Replace the stored row with primary key `f.pk` by `f`, modelling a
committed `UPDATE`. -/
def update_flag (g : Graph) (f : FeatureFlag) : Graph :=
  { g with flags := g.flags.map (fun x => if x.pk = f.pk then f else x) }

/-- Outcome of the toggle endpoint.  `attribute_error` models the untyped
`AttributeError` the source raises after a successful save:
`FeatureFlagToggleSerializer.update` builds its audit record with
`AuditLog.AuditLogType.FLAG_TOGGLE`, a member that does not exist on
`AuditLogType` (and the following `reason=reason` names an undefined
variable), so control never reaches the audit-log insertion. -/
inductive ToggleResult
  | ok
  | not_found
  | unmet (blockers : List String)
  | attribute_error
deriving DecidableEq

/-- An audit event as the engine would emit it (flag pk and log type). -/
structure AuditEvent where
  flag : Nat
  log_type : String
deriving DecidableEq

/-- Model of the toggle endpoint (`feature_flag_toggle` view driving
`FeatureFlagToggleSerializer.update`): look the flag up, flip
`is_enabled`, run `save` (which runs `full_clean` since `pk` is set; a
validation failure is re-raised as a typed DRF error and nothing is
committed), then attempt the audit-log write, which always raises
`AttributeError` — so a successful save commits the flip but emits no
event and no cascade of any kind runs. -/
def feature_flag_toggle (g : Graph) (pk : Nat) :
    ToggleResult × Graph × List AuditEvent :=
  match findFlag g pk with
  | none => (.not_found, g, [])
  | some f =>
    let f2 : FeatureFlag := { f with is_enabled := !f.is_enabled }
    match featureflag_clean g f2 with
    | some blockers => (.unmet blockers, g, [])
    | none => (.attribute_error, update_flag g f2, [])

/-- Chain scenario of the spec's cascade property: `B` depends on `A`,
`C` depends on `B`, all enabled. -/
def chainGraph : Graph :=
  ⟨[⟨1, "A", true⟩, ⟨2, "B", true⟩, ⟨3, "C", true⟩], [(2, 1), (3, 2)]⟩

/-- Diamond over enabled flags: `A` depends on `B` and `C`, which both
depend on `D`. -/
def diamondGraph : Graph :=
  ⟨[⟨1, "D", true⟩, ⟨2, "B", true⟩, ⟨3, "C", true⟩, ⟨4, "A", true⟩],
    [(4, 2), (4, 3), (2, 1), (3, 1)]⟩

/-- Diamond in which the shared dependency `D` and the top flag `A` are
disabled. -/
def blockedDiamondGraph : Graph :=
  ⟨[⟨1, "D", false⟩, ⟨2, "B", true⟩, ⟨3, "C", true⟩, ⟨4, "A", false⟩],
    [(4, 2), (4, 3), (2, 1), (3, 1)]⟩

/-- Two flags with the single edge "A depends on B". -/
def pairGraph : Graph :=
  ⟨[⟨1, "B", true⟩, ⟨2, "A", true⟩], [(2, 1)]⟩

/-- Two flags with the single edge "A depends on B", used for the concrete
cycle-path scenario. -/
def pairGraphAB : Graph :=
  ⟨[⟨1, "B", true⟩, ⟨2, "A", true⟩], [(2, 1)]⟩

/-- Disabled flag `A` with disabled dependent `B`. -/
def blockedPairGraph : Graph :=
  ⟨[⟨1, "A", false⟩, ⟨2, "B", false⟩], [(2, 1)]⟩

/-- A single enabled flag. -/
def singleFlagGraph : Graph :=
  ⟨[⟨1, "a", true⟩], []⟩

/-- A single disabled flag `X`, the source candidate of the creation
scenario. -/
def disabledSourceGraph : Graph :=
  ⟨[⟨1, "X", false⟩], []⟩

/-- A two-node dependency cycle, standing for historical or externally
loaded data that violates the acyclicity invariant. -/
def cyclicGraph : Graph :=
  ⟨[⟨1, "A", true⟩, ⟨2, "B", true⟩], [(1, 2), (2, 1)]⟩

instance {ε α : Type} [DecidableEq ε] [DecidableEq α] :
    DecidableEq (Except ε α)
  | .error a, .error b => decidable_of_iff (a = b) (by simp)
  | .error _, .ok _ => .isFalse (fun hc => Except.noConfusion hc)
  | .ok _, .error _ => .isFalse (fun hc => Except.noConfusion hc)
  | .ok a, .ok b => decidable_of_iff (a = b) (by simp)

/-- Model of the autoincrement primary key for a newly inserted flag. -/
def fresh_pk (g : Graph) : Nat :=
  (g.flags.map FeatureFlag.pk).foldl max 0 + 1

/-- Dependency-creation loop of `FeatureFlagRetrieveSerializer.create`:
each `initial_dependencies` entry is resolved by title and inserted through
`Dependency.objects.create` (hence `full_clean`); the first failure aborts
the enclosing transaction. -/
def add_deps_loop (f : FeatureFlag) :
    List String → Graph → Except Err Graph
  | [], g => .ok g
  | t :: rest, g =>
    match g.flags.find? (fun x => x.title = t) with
    | none => .error .unknownSourceFlag
    | some src =>
      match dependency_full_clean g f src with
      | some e => .error e
      | none =>
        add_deps_loop f rest { g with edges := g.edges ++ [(f.pk, src.pk)] }

/-- Number of flag primary keys not yet in the visited set: the decreasing
measure of the cycle search. -/
def unvisitedPks (g : Graph) (vis : List Nat) : Nat :=
  ((g.flags.map FeatureFlag.pk).filter (fun p => p ∉ vis)).length

/-- Number of flag titles not yet in the visited set: the decreasing
measure of the activation evaluation. -/
def unvisitedTitles (g : Graph) (vis : List String) : Nat :=
  ((g.flags.map FeatureFlag.title).filter (fun t => t ∉ vis)).length

/-- Model of flag creation with initial dependencies
(`FeatureFlagRetrieveSerializer.create` inside `transaction.atomic`): DRF
validation rejects a duplicate title and unknown source titles; then the
flag row is inserted — `FeatureFlag.save` runs no validation because `pk`
is `None` at that point — and the dependencies are added one by one; any
dependency failure rolls the whole transaction back. -/
def create_flag_with_dependencies (g : Graph) (title : String)
    (enabled : Bool) (sourceTitles : List String) :
    Except Err FeatureFlag × Graph :=
  if g.flags.any (fun f => f.title = title) then (.error .duplicateTitle, g)
  else if sourceTitles.any (fun t =>
      (g.flags.find? (fun f => f.title = t)).isNone) then
    (.error .unknownSourceFlag, g)
  else
    let f : FeatureFlag := ⟨fresh_pk g, title, enabled⟩
    match add_deps_loop f sourceTitles { g with flags := g.flags ++ [f] } with
    | .error e => (.error e, g)
    | .ok g2 => (.ok f, g2)

/-! ### Basic lookup and list lemmas -/

theorem findFlag_pk {g : Graph} {pk : Nat} {f : FeatureFlag}
    (h : findFlag g pk = some f) : f.pk = pk ∧ f ∈ g.flags := by
  unfold findFlag at h
  have h1 := List.find?_some h
  have h2 := List.mem_of_find?_eq_some h
  simp only [decide_eq_true_eq] at h1
  exact ⟨h1, h2⟩

theorem eq_of_pk {g : Graph} {a b : FeatureFlag} (hw : WF g)
    (ha : a ∈ g.flags) (hb : b ∈ g.flags) (h : a.pk = b.pk) : a = b :=
  List.inj_on_of_nodup_map hw.1 ha hb h

theorem eq_of_title {g : Graph} {a b : FeatureFlag} (hw : WF g)
    (ha : a ∈ g.flags) (hb : b ∈ g.flags) (h : a.title = b.title) : a = b :=
  List.inj_on_of_nodup_map hw.2.1 ha hb h

theorem findFlag_of_mem {g : Graph} {f : FeatureFlag} (hw : WF g)
    (hf : f ∈ g.flags) : findFlag g f.pk = some f := by
  cases h : findFlag g f.pk with
  | none =>
    exfalso
    have := List.find?_eq_none.mp h f hf
    simp at this
  | some f2 =>
    obtain ⟨hpk, hmem⟩ := findFlag_pk h
    rw [eq_of_pk hw hmem hf hpk]

theorem mem_sourcesOf {g : Graph} {pk : Nat} {s : FeatureFlag} :
    s ∈ sourcesOf g pk ↔
      ∃ e, (e ∈ g.edges ∧ e.1 = pk) ∧ findFlag g e.2 = some s := by
  simp [sourcesOf, List.mem_filterMap, List.mem_filter]

theorem sourcesOf_mem_flags {g : Graph} {pk : Nat} {s : FeatureFlag}
    (h : s ∈ sourcesOf g pk) : s ∈ g.flags := by
  obtain ⟨e, _, hf⟩ := mem_sourcesOf.mp h
  exact (findFlag_pk hf).2

theorem sourcesOf_edge {g : Graph} {pk : Nat} {s : FeatureFlag}
    (h : s ∈ sourcesOf g pk) : (pk, s.pk) ∈ g.edges := by
  obtain ⟨e, ⟨he, h1⟩, hf⟩ := mem_sourcesOf.mp h
  have h2 := (findFlag_pk hf).1
  have : e = (pk, s.pk) := by
    cases e
    simp_all
  rwa [this] at he

theorem edge_mem_sourcesOf {g : Graph} {a b : Nat} (hw : WF g)
    (he : (a, b) ∈ g.edges) :
    ∃ fb, findFlag g b = some fb ∧ fb.pk = b ∧ fb ∈ sourcesOf g a := by
  have hb : b ∈ g.flags.map FeatureFlag.pk := ((hw.2.2.1 _ he).2)
  obtain ⟨x, hx, hxpk⟩ := List.mem_map.mp hb
  have hfind : findFlag g b = some x := by
    have := findFlag_of_mem hw hx
    rwa [hxpk] at this
  refine ⟨x, hfind, hxpk, ?_⟩
  exact mem_sourcesOf.mpr ⟨(a, b), ⟨he, rfl⟩, hfind⟩

theorem list_all_congr {α : Type} {p q : α → Bool} {l : List α}
    (h : ∀ x ∈ l, p x = q x) : l.all p = l.all q := by
  induction l with
  | nil => rfl
  | cons a t ih =>
    have ha : p a = q a := h a (List.mem_cons_self a t)
    have ht : t.all p = t.all q :=
      ih fun x hx => h x (List.mem_cons_of_mem a hx)
    simp only [List.all_cons, ha, ht]

theorem length_filter_le_of_imp {α : Type} (l : List α) {p q : α → Bool}
    (h : ∀ a, p a = true → q a = true) :
    (l.filter p).length ≤ (l.filter q).length := by
  induction l with
  | nil => exact Nat.le_refl 0
  | cons a t ih =>
    by_cases hp : p a = true
    · have hq := h a hp
      simp only [List.filter_cons, hp, hq, if_true, List.length_cons]
      exact Nat.succ_le_succ ih
    · have hp2 : p a = false := by simpa using hp
      simp only [List.filter_cons, hp2, Bool.false_eq_true, if_false]
      by_cases hq : q a = true
      · simp only [hq, if_true, List.length_cons]
        exact Nat.le_succ_of_le ih
      · have hq2 : q a = false := by simpa using hq
        simp only [hq2, Bool.false_eq_true, if_false]
        exact ih

theorem length_filter_notmem_le {α : Type} [DecidableEq α] (L : List α)
    {vis vis2 : List α} (h : vis ⊆ vis2) :
    (L.filter (fun x => x ∉ vis2)).length ≤
      (L.filter (fun x => x ∉ vis)).length := by
  apply length_filter_le_of_imp
  intro a ha
  simp only [decide_eq_true_eq] at *
  exact fun hmem => ha (h hmem)

theorem length_filter_notmem_cons_lt {α : Type} [DecidableEq α]
    (L : List α) (vis : List α) (a : α) (ha : a ∈ L) (hv : a ∉ vis) :
    (L.filter (fun x => x ∉ a :: vis)).length + 1 ≤
      (L.filter (fun x => x ∉ vis)).length := by
  induction L with
  | nil => cases ha
  | cons b t ih =>
    simp only [List.filter_cons]
    by_cases hb : b = a
    · subst hb
      have h1 : (decide (b ∉ b :: vis)) = false := by simp
      have h2 : (decide (b ∉ vis)) = true := by simpa using hv
      simp only [h1, h2, Bool.false_eq_true, if_false, if_true,
        List.length_cons]
      have hmono : (t.filter (fun x => x ∉ b :: vis)).length ≤
          (t.filter (fun x => x ∉ vis)).length := by
        apply length_filter_le_of_imp
        intro x hx
        simp only [decide_eq_true_eq, List.mem_cons] at *
        exact fun hmem => hx (Or.inr hmem)
      omega
    · have hat : a ∈ t := by
        rcases List.mem_cons.mp ha with h | h
        · exact absurd h.symm hb
        · exact h
      have hiff : (decide (b ∉ a :: vis)) = (decide (b ∉ vis)) := by
        have : (b ∈ a :: vis) ↔ (b ∈ vis) := by simp [List.mem_cons, hb]
        simp [this]
      rw [hiff]
      by_cases hbv : (decide (b ∉ vis)) = true
      · simp only [hbv, if_true, List.length_cons]
        have := ih hat
        omega
      · simp only [Bool.not_eq_true] at hbv
        simp only [hbv, Bool.false_eq_true, if_false]
        exact ih hat

/-! ### Reachability lemmas -/

theorem reach_trans {g : Graph} {a b c : Nat} (h1 : Reach g a b)
    (h2 : Reach g b c) : Reach g a c := by
  induction h1 with
  | refl => exact h2
  | step he _ ih => exact .step he (ih h2)

theorem reach_le_of_decreasing {g : Graph}
    (h : ∀ e ∈ g.edges, e.2 < e.1) {a b : Nat} (hr : Reach g a b) :
    b ≤ a := by
  induction hr with
  | refl => exact le_refl _
  | step he _ ih => exact le_trans ih (le_of_lt (h _ he))

theorem acyclic_of_decreasing (g : Graph)
    (h : ∀ e ∈ g.edges, e.2 < e.1) : Acyclic g := by
  intro e he hr
  have h1 := reach_le_of_decreasing h hr
  have h2 := h e he
  omega

theorem reach_of_edges_eq {g1 g2 : Graph} (he : g1.edges = g2.edges)
    {a b : Nat} (h : Reach g1 a b) : Reach g2 a b := by
  induction h with
  | refl => exact .refl _
  | step hm _ ih => exact .step (he ▸ hm) ih

theorem acyclic_of_edges_eq {g1 g2 : Graph} (he : g1.edges = g2.edges)
    (h : Acyclic g1) : Acyclic g2 := by
  intro e hm hr
  exact h e (he ▸ hm) (reach_of_edges_eq he.symm hr)

theorem reach_append_edge {g : Graph} {a b x y : Nat}
    (h : Reach { g with edges := g.edges ++ [(a, b)] } x y) :
    Reach g x y ∨ (Reach g x a ∧ Reach g b y) := by
  induction h with
  | refl => exact Or.inl (.refl _)
  | step hm _ ih =>
    rcases List.mem_append.mp hm with h1 | h1
    · rcases ih with h2 | ⟨h2, h3⟩
      · exact Or.inl (.step h1 h2)
      · exact Or.inr ⟨.step h1 h2, h3⟩
    · have hp : _ ∧ _ := Prod.mk.injEq .. ▸ (List.mem_singleton.mp h1)
      obtain ⟨hu, hv⟩ := hp
      subst hu
      subst hv
      rcases ih with h2 | ⟨h2, h3⟩
      · exact Or.inr ⟨.refl _, h2⟩
      · exact Or.inr ⟨.refl _, h3⟩

/-! ### Activation evaluation: fuel stability and the fixpoint equation -/

theorem unvisitedTitles_nil (g : Graph) :
    unvisitedTitles g [] = g.flags.length := by
  unfold unvisitedTitles
  simp

theorem check_succ_eq (g : Graph) (fuel : Nat) (f : FeatureFlag)
    (visited : List String) :
    check_dependencies_recursively g (fuel + 1) f visited =
      if f.title ∈ visited then false
      else
        (sourcesOf g f.pk).all (fun s =>
          s.is_enabled &&
            check_dependencies_recursively g fuel s (f.title :: visited)) :=
  rfl

theorem check_stable {g : Graph} :
    ∀ (fuel : Nat) (f : FeatureFlag) (visited : List String),
      f ∈ g.flags → unvisitedTitles g visited ≤ fuel →
      check_dependencies_recursively g fuel f visited =
        check_dependencies_recursively g (fuel + 1) f visited := by
  intro fuel
  induction fuel with
  | zero =>
    intro f visited hf hu
    have h0 : unvisitedTitles g visited = 0 := Nat.le_zero.mp hu
    have hmem : f.title ∈ visited := by
      by_contra hnm
      have h1 : f.title ∈
          (g.flags.map FeatureFlag.title).filter (fun t => t ∉ visited) := by
        rw [List.mem_filter]
        exact ⟨List.mem_map_of_mem _ hf, by simpa using hnm⟩
      have h2 := List.length_pos_of_mem h1
      unfold unvisitedTitles at h0
      omega
    simp [check_dependencies_recursively, hmem]
  | succ n ih =>
    intro f visited hf hu
    rw [check_succ_eq, check_succ_eq]
    by_cases hm : f.title ∈ visited
    · rw [if_pos hm, if_pos hm]
    · rw [if_neg hm, if_neg hm]
      apply list_all_congr
      intro s hs
      have hs2 := sourcesOf_mem_flags hs
      have hu2 : unvisitedTitles g (f.title :: visited) ≤ n := by
        have hlt := length_filter_notmem_cons_lt
          (g.flags.map FeatureFlag.title) visited f.title
          (List.mem_map_of_mem _ hf) hm
        unfold unvisitedTitles at *
        omega
      rw [ih s (f.title :: visited) hs2 hu2]

theorem check_stable_ge {g : Graph} {f : FeatureFlag}
    {visited : List String} (hf : f ∈ g.flags) {m n : Nat}
    (hm : unvisitedTitles g visited ≤ m) (hmn : m ≤ n) :
    check_dependencies_recursively g m f visited =
      check_dependencies_recursively g n f visited := by
  induction hmn with
  | refl => rfl
  | @step k hk ih =>
    rw [ih, check_stable k f visited hf (le_trans hm hk)]

theorem check_congr_visited {g : Graph} :
    ∀ (fuel : Nat) (f : FeatureFlag) (v1 v2 : List String),
      f ∈ g.flags →
      (∀ u ∈ g.flags, Reach g f.pk u.pk → (u.title ∈ v1 ↔ u.title ∈ v2)) →
      check_dependencies_recursively g fuel f v1 =
        check_dependencies_recursively g fuel f v2 := by
  intro fuel
  induction fuel with
  | zero => intro f v1 v2 _ _; rfl
  | succ n ih =>
    intro f v1 v2 hf hcong
    rw [check_succ_eq, check_succ_eq]
    have hguard := hcong f hf (Reach.refl _)
    by_cases hm : f.title ∈ v1
    · rw [if_pos hm, if_pos (hguard.mp hm)]
    · have hm2 : f.title ∉ v2 := fun h => hm (hguard.mpr h)
      rw [if_neg hm, if_neg hm2]
      apply list_all_congr
      intro s hs
      have hs2 := sourcesOf_mem_flags hs
      have hedge := sourcesOf_edge hs
      rw [ih s (f.title :: v1) (f.title :: v2) hs2 ?_]
      intro u hu hr
      simp only [List.mem_cons]
      exact or_congr Iff.rfl (hcong u hu (Reach.step hedge hr))

theorem can_be_active_eq {g : Graph} (hw : WF g) (hac : Acyclic g)
    {f : FeatureFlag} (hf : f ∈ g.flags) :
    can_be_active g f = (sourcesOf g f.pk).all (fun s => is_active g s) := by
  unfold can_be_active
  rw [check_succ_eq]
  rw [if_neg (List.not_mem_nil _)]
  apply list_all_congr
  intro s hs
  have hs2 := sourcesOf_mem_flags hs
  have hedge := sourcesOf_edge hs
  have h1 : check_dependencies_recursively g g.flags.length s [f.title] =
      check_dependencies_recursively g g.flags.length s [] := by
    apply check_congr_visited g.flags.length s [f.title] [] hs2
    intro u hu hr
    simp only [List.mem_singleton, List.not_mem_nil, iff_false]
    intro ht
    have huf : u = f := eq_of_title hw hu hf ht
    exact hac (f.pk, s.pk) hedge (huf ▸ hr)
  have h2 : check_dependencies_recursively g g.flags.length s [] =
      check_dependencies_recursively g (g.flags.length + 1) s [] := by
    apply check_stable g.flags.length s [] hs2
    rw [unvisitedTitles_nil]
  rw [h1, h2]
  rfl

/-! ### Cycle search: equations, monotonicity, path discipline -/

theorem unvisitedPks_nil (g : Graph) :
    unvisitedPks g [] = g.flags.length := by
  unfold unvisitedPks
  simp

theorem fp_zero_eq (g : Graph) (current target : FeatureFlag)
    (visited : List Nat) (path : List FeatureFlag) :
    find_path_and_detect_cycle g 0 current target visited path =
      (false, visited, path) :=
  rfl

theorem fp_succ_eq (g : Graph) (fuel : Nat) (current target : FeatureFlag)
    (visited : List Nat) (path : List FeatureFlag) :
    find_path_and_detect_cycle g (fuel + 1) current target visited path =
      if current.pk = target.pk then (true, visited, path ++ [current])
      else if current.pk ∈ visited then (false, visited, path)
      else
        let r := (sourcesOf g current.pk).foldl (fp_step g fuel target)
          (false, current.pk :: visited, path ++ [current])
        if r.1 then r else (false, r.2.1, r.2.2.dropLast) :=
  rfl

theorem fp_done (g : Graph) (fuel : Nat) (target : FeatureFlag) :
    ∀ (rules : List FeatureFlag) (acc : Bool × List Nat × List FeatureFlag),
      acc.1 = true → rules.foldl (fp_step g fuel target) acc = acc := by
  intro rules
  induction rules with
  | nil => intro acc _; rfl
  | cons s rest ih =>
    intro acc hacc
    rw [List.foldl_cons]
    have hstep : fp_step g fuel target acc s = acc := by
      unfold fp_step
      rw [if_pos hacc]
    rw [hstep]
    exact ih acc hacc

theorem find_path_mono {g : Graph} {target : FeatureFlag} :
    ∀ (fuel : Nat) (current : FeatureFlag) (visited : List Nat)
      (path : List FeatureFlag),
      visited ⊆
        (find_path_and_detect_cycle g fuel current target visited path).2.1 := by
  intro fuel
  induction fuel with
  | zero => intro current visited path; exact List.Subset.refl _
  | succ n ih =>
    intro current visited path
    have hloop : ∀ (rules : List FeatureFlag)
        (acc : Bool × List Nat × List FeatureFlag),
        acc.2.1 ⊆ (rules.foldl (fp_step g n target) acc).2.1 := by
      intro rules
      induction rules with
      | nil => intro acc; exact List.Subset.refl _
      | cons s rest ihr =>
        intro acc
        rw [List.foldl_cons]
        refine List.Subset.trans ?_ (ihr _)
        unfold fp_step
        by_cases hd : acc.1 = true
        · rw [if_pos hd]
          exact List.Subset.refl _
        · rw [if_neg hd]
          exact ih s acc.2.1 acc.2.2
    rw [fp_succ_eq]
    by_cases h1 : current.pk = target.pk
    · rw [if_pos h1]
      exact List.Subset.refl _
    · rw [if_neg h1]
      by_cases h2 : current.pk ∈ visited
      · rw [if_pos h2]
        exact List.Subset.refl _
      · rw [if_neg h2]
        simp only
        by_cases h3 : ((sourcesOf g current.pk).foldl (fp_step g n target)
            (false, current.pk :: visited, path ++ [current])).1 = true
        · rw [if_pos h3]
          refine List.Subset.trans ?_ (hloop _ _)
          exact List.subset_cons_self _ _
        · rw [if_neg h3]
          refine List.Subset.trans ?_ (hloop _ _)
          exact List.subset_cons_self _ _

theorem find_path_fail_path {g : Graph} {target : FeatureFlag} :
    ∀ (fuel : Nat) (current : FeatureFlag) (visited : List Nat)
      (path : List FeatureFlag) (v : List Nat) (p : List FeatureFlag),
      find_path_and_detect_cycle g fuel current target visited path =
        (false, v, p) → p = path := by
  intro fuel
  induction fuel with
  | zero =>
    intro current visited path v p h
    rw [fp_zero_eq] at h
    exact (congrArg (fun x => x.2.2) h).symm
  | succ n ih =>
    intro current visited path v p h
    have hloop : ∀ (rules : List FeatureFlag)
        (acc : Bool × List Nat × List FeatureFlag), acc.1 = false →
        ∀ (v2 : List Nat) (p2 : List FeatureFlag),
        rules.foldl (fp_step g n target) acc = (false, v2, p2) →
        p2 = acc.2.2 := by
      intro rules
      induction rules with
      | nil =>
        intro acc hacc v2 p2 hfold
        rw [List.foldl_nil] at hfold
        exact (congrArg (fun x => x.2.2) hfold).symm
      | cons s rest ihr =>
        intro acc hacc v2 p2 hfold
        rw [List.foldl_cons] at hfold
        have hstep : fp_step g n target acc s =
            find_path_and_detect_cycle g n s target acc.2.1 acc.2.2 := by
          unfold fp_step
          rw [if_neg (by simp [hacc])]
        rw [hstep] at hfold
        rcases hacc2 : find_path_and_detect_cycle g n s target acc.2.1 acc.2.2
          with ⟨b, v1, p1⟩
        rw [hacc2] at hfold
        cases b with
        | true =>
          rw [fp_done g n target rest (true, v1, p1) rfl] at hfold
          exact absurd (congrArg (fun x => x.1) hfold) (by simp)
        | false =>
          have hp1 : p1 = acc.2.2 := ih s acc.2.1 acc.2.2 v1 p1 hacc2
          have := ihr (false, v1, p1) rfl v2 p2 hfold
          rw [this, hp1]
    rw [fp_succ_eq] at h
    by_cases h1 : current.pk = target.pk
    · rw [if_pos h1] at h
      exact absurd (congrArg (fun x => x.1) h) (by simp)
    · rw [if_neg h1] at h
      by_cases h2 : current.pk ∈ visited
      · rw [if_pos h2] at h
        exact (congrArg (fun x => x.2.2) h).symm
      · rw [if_neg h2] at h
        simp only at h
        rcases hr : (sourcesOf g current.pk).foldl (fp_step g n target)
            (false, current.pk :: visited, path ++ [current]) with ⟨b, v1, p1⟩
        rw [hr] at h
        cases b with
        | true =>
          rw [if_pos rfl] at h
          exact absurd (congrArg (fun x => x.1) h) (by simp)
        | false =>
          rw [if_neg (by simp)] at h
          have hp1 : p1 = path ++ [current] :=
            hloop _ (false, current.pk :: visited, path ++ [current]) rfl v1 p1 hr
          have hp : p = p1.dropLast := (congrArg (fun x => x.2.2) h).symm
          rw [hp, hp1, List.dropLast_concat]

theorem getLast_cons_of_ne_nil {α : Type} (a : α) {l : List α}
    (h : l ≠ []) : (a :: l).getLast? = l.getLast? := by
  cases l with
  | nil => exact absurd rfl h
  | cons b t => exact List.getLast?_cons_cons ..

theorem ne_nil_of_head_some {α : Type} {l : List α} {a : α}
    (h : l.head? = some a) : l ≠ [] := by
  cases l with
  | nil => cases h
  | cons b t => exact List.cons_ne_nil _ _

theorem find_path_nodup {g : Graph} {target : FeatureFlag} :
    ∀ (fuel : Nat) (current : FeatureFlag) (visited : List Nat)
      (path : List FeatureFlag), visited.Nodup →
      ((find_path_and_detect_cycle g fuel current target visited path).2.1).Nodup := by
  intro fuel
  induction fuel with
  | zero => intro current visited path hv; exact hv
  | succ n ih =>
    intro current visited path hv
    have hloop : ∀ (rules : List FeatureFlag)
        (acc : Bool × List Nat × List FeatureFlag), acc.2.1.Nodup →
        ((rules.foldl (fp_step g n target) acc).2.1).Nodup := by
      intro rules
      induction rules with
      | nil => intro acc hacc; exact hacc
      | cons s rest ihr =>
        intro acc hacc
        rw [List.foldl_cons]
        apply ihr
        unfold fp_step
        by_cases hd : acc.1 = true
        · rw [if_pos hd]; exact hacc
        · rw [if_neg hd]
          exact ih s acc.2.1 acc.2.2 hacc
    rw [fp_succ_eq]
    by_cases h1 : current.pk = target.pk
    · rw [if_pos h1]; exact hv
    · rw [if_neg h1]
      by_cases h2 : current.pk ∈ visited
      · rw [if_pos h2]; exact hv
      · rw [if_neg h2]
        simp only
        have hacc0 : (current.pk :: visited).Nodup :=
          List.nodup_cons.mpr ⟨h2, hv⟩
        by_cases h3 : ((sourcesOf g current.pk).foldl (fp_step g n target)
            (false, current.pk :: visited, path ++ [current])).1 = true
        · rw [if_pos h3]
          exact hloop _ _ hacc0
        · rw [if_neg h3]
          exact hloop _ _ hacc0

theorem find_path_success {g : Graph} {target : FeatureFlag} :
    ∀ (fuel : Nat) (current : FeatureFlag) (visited : List Nat)
      (path : List FeatureFlag) (v : List Nat) (p : List FeatureFlag),
      current ∈ g.flags →
      find_path_and_detect_cycle g fuel current target visited path =
        (true, v, p) →
      ∃ q t, p = path ++ q ∧ q.head? = some current ∧
        q.getLast? = some t ∧ t.pk = target.pk ∧ t ∈ g.flags := by
  intro fuel
  induction fuel with
  | zero =>
    intro current visited path v p _ h
    rw [fp_zero_eq] at h
    exact absurd (congrArg (fun x => x.1) h) (by simp)
  | succ n ih =>
    intro current visited path v p hc h
    have hloop : ∀ (rules : List FeatureFlag)
        (acc : Bool × List Nat × List FeatureFlag),
        (∀ s ∈ rules, s ∈ g.flags) → acc.1 = false →
        ∀ (v2 : List Nat) (p2 : List FeatureFlag),
        rules.foldl (fp_step g n target) acc = (true, v2, p2) →
        ∃ q t, p2 = acc.2.2 ++ q ∧ q ≠ [] ∧ q.getLast? = some t ∧
          t.pk = target.pk ∧ t ∈ g.flags := by
      intro rules
      induction rules with
      | nil =>
        intro acc hmem hacc v2 p2 hfold
        rw [List.foldl_nil] at hfold
        rw [hfold] at hacc
        cases hacc
      | cons s rest ihr =>
        intro acc hmem hacc v2 p2 hfold
        rw [List.foldl_cons] at hfold
        have hstep : fp_step g n target acc s =
            find_path_and_detect_cycle g n s target acc.2.1 acc.2.2 := by
          unfold fp_step
          rw [if_neg (by simp [hacc])]
        rw [hstep] at hfold
        rcases hacc2 : find_path_and_detect_cycle g n s target acc.2.1 acc.2.2
          with ⟨b, v1, p1⟩
        rw [hacc2] at hfold
        cases b with
        | true =>
          rw [fp_done g n target rest (true, v1, p1) rfl] at hfold
          have hv1 : v1 = v2 := congrArg (fun x => x.2.1) hfold
          have hp1 : p1 = p2 := congrArg (fun x => x.2.2) hfold
          subst hv1
          subst hp1
          obtain ⟨q, t, hq, hhead, hlast, htpk, htm⟩ :=
            ih s acc.2.1 acc.2.2 v1 p1 (hmem s (by simp)) hacc2
          exact ⟨q, t, hq, ne_nil_of_head_some hhead, hlast, htpk, htm⟩
        | false =>
          have hp1 : p1 = acc.2.2 :=
            find_path_fail_path n s acc.2.1 acc.2.2 v1 p1 hacc2
          obtain ⟨q, t, hq, hne, hlast, htpk, htm⟩ :=
            ihr (false, v1, p1) (fun x hx => hmem x (by simp [hx])) rfl
              v2 p2 hfold
          rw [hp1] at hq
          exact ⟨q, t, hq, hne, hlast, htpk, htm⟩
    rw [fp_succ_eq] at h
    by_cases h1 : current.pk = target.pk
    · rw [if_pos h1] at h
      have hv : visited = v := congrArg (fun x => x.2.1) h
      have hp : path ++ [current] = p := congrArg (fun x => x.2.2) h
      refine ⟨[current], current, hp.symm, rfl, rfl, h1, hc⟩
    · rw [if_neg h1] at h
      by_cases h2 : current.pk ∈ visited
      · rw [if_pos h2] at h
        exact absurd (congrArg (fun x => x.1) h) (by simp)
      · rw [if_neg h2] at h
        simp only at h
        rcases hr : (sourcesOf g current.pk).foldl (fp_step g n target)
            (false, current.pk :: visited, path ++ [current]) with ⟨b, v1, p1⟩
        rw [hr] at h
        cases b with
        | false =>
          rw [if_neg (by simp)] at h
          exact absurd (congrArg (fun x => x.1) h) (by simp)
        | true =>
          rw [if_pos rfl] at h
          have hv1 : v1 = v := congrArg (fun x => x.2.1) h
          have hp1 : p1 = p := congrArg (fun x => x.2.2) h
          obtain ⟨q, t, hq, hne, hlast, htpk, htm⟩ :=
            hloop _ (false, current.pk :: visited, path ++ [current])
              (fun x hx => sourcesOf_mem_flags hx) rfl v1 p1 hr
          refine ⟨current :: q, t, ?_, rfl, ?_, htpk, htm⟩
          · rw [← hp1, hq]
            simp
          · rw [getLast_cons_of_ne_nil current hne]
            exact hlast

theorem unvisitedPks_cons_le (g : Graph) {a : Nat} {vis : List Nat}
    (ha : a ∈ g.flags.map FeatureFlag.pk) (hv : a ∉ vis) :
    unvisitedPks g (a :: vis) + 1 ≤ unvisitedPks g vis := by
  unfold unvisitedPks
  exact length_filter_notmem_cons_lt _ vis a ha hv

theorem unvisitedPks_le_of_subset (g : Graph) {v v2 : List Nat}
    (h : v ⊆ v2) : unvisitedPks g v2 ≤ unvisitedPks g v := by
  unfold unvisitedPks
  exact length_filter_notmem_le _ h

theorem find_path_fail_inv {g : Graph} {target : FeatureFlag} :
    ∀ (fuel : Nat) (current : FeatureFlag) (visited : List Nat)
      (path : List FeatureFlag) (v : List Nat) (p : List FeatureFlag),
      current ∈ g.flags → unvisitedPks g visited + 1 ≤ fuel →
      find_path_and_detect_cycle g fuel current target visited path =
        (false, v, p) →
      visited ⊆ v ∧ current.pk ∈ v ∧
        ∀ u ∈ v, u ∉ visited →
          u ≠ target.pk ∧ ∀ s ∈ sourcesOf g u, s.pk ∈ v := by
  intro fuel
  induction fuel with
  | zero =>
    intro current visited path v p _ hfuel _
    omega
  | succ n ih =>
    intro current visited path v p hc hfuel h
    have hloop : ∀ (rules : List FeatureFlag)
        (acc : Bool × List Nat × List FeatureFlag),
        (∀ s ∈ rules, s ∈ g.flags) → acc.1 = false →
        unvisitedPks g acc.2.1 + 1 ≤ n →
        ∀ (v2 : List Nat) (p2 : List FeatureFlag),
        rules.foldl (fp_step g n target) acc = (false, v2, p2) →
        acc.2.1 ⊆ v2 ∧ (∀ s ∈ rules, s.pk ∈ v2) ∧
          ∀ u ∈ v2, u ∉ acc.2.1 →
            u ≠ target.pk ∧ ∀ s2 ∈ sourcesOf g u, s2.pk ∈ v2 := by
      intro rules
      induction rules with
      | nil =>
        intro acc _ _ _ v2 p2 hfold
        rw [List.foldl_nil] at hfold
        have hv : acc.2.1 = v2 := congrArg (fun x => x.2.1) hfold
        refine ⟨hv ▸ List.Subset.refl _, ?_, ?_⟩
        · intro s hs
          exact absurd hs (List.not_mem_nil s)
        · intro u hu hnv
          rw [← hv] at hu
          exact absurd hu hnv
      | cons s rest ihr =>
        intro acc hmem hacc hfuel2 v2 p2 hfold
        rw [List.foldl_cons] at hfold
        have hstep : fp_step g n target acc s =
            find_path_and_detect_cycle g n s target acc.2.1 acc.2.2 := by
          unfold fp_step
          rw [if_neg (by simp [hacc])]
        rw [hstep] at hfold
        rcases hacc2 : find_path_and_detect_cycle g n s target acc.2.1 acc.2.2
          with ⟨b, v1, p1⟩
        rw [hacc2] at hfold
        cases b with
        | true =>
          rw [fp_done g n target rest (true, v1, p1) rfl] at hfold
          exact absurd (congrArg (fun x => x.1) hfold) (by simp)
        | false =>
          obtain ⟨hsub1, hspk1, hnew1⟩ :=
            ih s acc.2.1 acc.2.2 v1 p1 (hmem s (by simp)) hfuel2 hacc2
          have hfuel3 : unvisitedPks g v1 + 1 ≤ n := by
            have := unvisitedPks_le_of_subset g hsub1
            omega
          obtain ⟨hsub2, hspk2, hnew2⟩ :=
            ihr (false, v1, p1) (fun x hx => hmem x (by simp [hx])) rfl
              hfuel3 v2 p2 hfold
          refine ⟨List.Subset.trans hsub1 hsub2, ?_, ?_⟩
          · intro x hx
            rcases List.mem_cons.mp hx with hx1 | hx1
            · rw [hx1]
              exact hsub2 hspk1
            · exact hspk2 x hx1
          · intro u hu hnv
            by_cases huv1 : u ∈ v1
            · obtain ⟨hne, hcl⟩ := hnew1 u huv1 hnv
              exact ⟨hne, fun s2 hs2 => hsub2 (hcl s2 hs2)⟩
            · exact hnew2 u hu huv1
    rw [fp_succ_eq] at h
    by_cases h1 : current.pk = target.pk
    · rw [if_pos h1] at h
      exact absurd (congrArg (fun x => x.1) h) (by simp)
    · rw [if_neg h1] at h
      by_cases h2 : current.pk ∈ visited
      · rw [if_pos h2] at h
        have hv : visited = v := congrArg (fun x => x.2.1) h
        refine ⟨hv ▸ List.Subset.refl _, hv ▸ h2, ?_⟩
        intro u hu hnv
        rw [← hv] at hu
        exact absurd hu hnv
      · rw [if_neg h2] at h
        simp only at h
        rcases hr : (sourcesOf g current.pk).foldl (fp_step g n target)
            (false, current.pk :: visited, path ++ [current]) with ⟨b, v1, p1⟩
        rw [hr] at h
        cases b with
        | true =>
          rw [if_pos rfl] at h
          exact absurd (congrArg (fun x => x.1) h) (by simp)
        | false =>
          rw [if_neg (by simp)] at h
          have hv : v1 = v := congrArg (fun x => x.2.1) h
          have hcpk : current.pk ∈ g.flags.map FeatureFlag.pk :=
            List.mem_map_of_mem _ hc
          have hfuel2 : unvisitedPks g (current.pk :: visited) + 1 ≤ n := by
            have := unvisitedPks_cons_le g hcpk h2
            omega
          obtain ⟨hsub, hspk, hnew⟩ := hloop _
            (false, current.pk :: visited, path ++ [current])
            (fun x hx => sourcesOf_mem_flags hx) rfl hfuel2 v1 p1 hr
          rw [hv] at hsub hspk hnew
          refine ⟨?_, hsub (by simp), ?_⟩
          · intro x hx
            exact hsub (by simp [hx])
          · intro u hu hnv
            by_cases hu2 : u = current.pk
            · subst hu2
              exact ⟨h1, fun s2 hs2 => hspk s2 hs2⟩
            · refine hnew u hu ?_
              simp only [List.mem_cons]
              exact fun hor => hor.elim hu2 hnv

theorem find_path_complete {g : Graph} (hw : WF g)
    {src tgt : FeatureFlag} (hs : src ∈ g.flags)
    (hr : Reach g src.pk tgt.pk) :
    (find_path_and_detect_cycle g (g.flags.length + 2) src tgt [] []).1 =
      true := by
  rcases hres : find_path_and_detect_cycle g (g.flags.length + 2) src tgt [] []
    with ⟨b, v, p⟩
  cases b with
  | true => rfl
  | false =>
    exfalso
    have hfuel : unvisitedPks g [] + 1 ≤ g.flags.length + 2 := by
      rw [unvisitedPks_nil]
      omega
    obtain ⟨_, hsrc, hnew⟩ :=
      find_path_fail_inv (g.flags.length + 2) src [] [] v p hs hfuel hres
    have hclosed : ∀ x y, Reach g x y → x ∈ v → y ∈ v := by
      intro x y hxy
      induction hxy with
      | refl => exact fun h => h
      | step he _ ihxy =>
        intro hx
        apply ihxy
        obtain ⟨fb, _, hfbpk, hfbsrc⟩ := edge_mem_sourcesOf hw he
        have := (hnew _ hx (List.not_mem_nil _)).2 fb hfbsrc
        rwa [hfbpk] at this
    have htgt : tgt.pk ∈ v := hclosed src.pk tgt.pk hr hsrc
    exact (hnew tgt.pk htgt (List.not_mem_nil _)).1 rfl

theorem find_path_stable {g : Graph} {target : FeatureFlag} :
    ∀ (fuel : Nat) (current : FeatureFlag) (visited : List Nat)
      (path : List FeatureFlag),
      current ∈ g.flags → unvisitedPks g visited + 1 ≤ fuel →
      find_path_and_detect_cycle g fuel current target visited path =
        find_path_and_detect_cycle g (fuel + 1) current target visited path := by
  intro fuel
  induction fuel with
  | zero =>
    intro current visited path _ hfuel
    omega
  | succ n ih =>
    intro current visited path hc hfuel
    have hloop : ∀ (rules : List FeatureFlag)
        (acc : Bool × List Nat × List FeatureFlag),
        (∀ s ∈ rules, s ∈ g.flags) → unvisitedPks g acc.2.1 + 1 ≤ n →
        rules.foldl (fp_step g n target) acc =
          rules.foldl (fp_step g (n + 1) target) acc := by
      intro rules
      induction rules with
      | nil => intro acc _ _; rfl
      | cons s rest ihr =>
        intro acc hmem hfuel2
        rw [List.foldl_cons, List.foldl_cons]
        by_cases hd : acc.1 = true
        · have e1 : fp_step g n target acc s = acc := by
            unfold fp_step
            rw [if_pos hd]
          have e2 : fp_step g (n + 1) target acc s = acc := by
            unfold fp_step
            rw [if_pos hd]
          rw [e1, e2]
          exact ihr acc (fun x hx => hmem x (by simp [hx])) hfuel2
        · have e1 : fp_step g n target acc s =
              find_path_and_detect_cycle g n s target acc.2.1 acc.2.2 := by
            unfold fp_step
            rw [if_neg hd]
          have e2 : fp_step g (n + 1) target acc s =
              find_path_and_detect_cycle g (n + 1) s target acc.2.1 acc.2.2 := by
            unfold fp_step
            rw [if_neg hd]
          rw [e1, e2, ← ih s acc.2.1 acc.2.2 (hmem s (by simp)) hfuel2]
          apply ihr _ (fun x hx => hmem x (by simp [hx]))
          have hsub := @find_path_mono g target n s acc.2.1 acc.2.2
          have := unvisitedPks_le_of_subset g hsub
          omega
    rw [fp_succ_eq, fp_succ_eq]
    by_cases h1 : current.pk = target.pk
    · rw [if_pos h1, if_pos h1]
    · rw [if_neg h1, if_neg h1]
      by_cases h2 : current.pk ∈ visited
      · rw [if_pos h2, if_pos h2]
      · rw [if_neg h2, if_neg h2]
        simp only
        have hcpk : current.pk ∈ g.flags.map FeatureFlag.pk :=
          List.mem_map_of_mem _ hc
        have hfuel2 : unvisitedPks g (current.pk :: visited) + 1 ≤ n := by
          have := unvisitedPks_cons_le g hcpk h2
          omega
        rw [hloop (sourcesOf g current.pk)
          (false, current.pk :: visited, path ++ [current])
          (fun x hx => sourcesOf_mem_flags hx) hfuel2]

theorem find_path_stable_ge {g : Graph} {target : FeatureFlag}
    {current : FeatureFlag} {visited : List Nat} {path : List FeatureFlag}
    (hc : current ∈ g.flags) {m n : Nat}
    (hm : unvisitedPks g visited + 1 ≤ m) (hmn : m ≤ n) :
    find_path_and_detect_cycle g m current target visited path =
      find_path_and_detect_cycle g n current target visited path := by
  induction hmn with
  | refl => rfl
  | @step k hk ih =>
    rw [ih, find_path_stable k current visited path hc (le_trans hm hk)]

/-! ### Blockers, inactivity propagation, and cycle rejection -/

theorem fb_succ_eq (g : Graph) (fuel : Nat) (f : FeatureFlag)
    (visited : List Nat) (blocking : List FeatureFlag) :
    find_blocking_dependencies g (fuel + 1) f visited blocking =
      if f.pk ∈ visited then (visited, blocking)
      else
        (sourcesOf g f.pk).foldl (fb_step g fuel)
          (f.pk :: visited, blocking) :=
  rfl

theorem find_blocking_sound {g : Graph} :
    ∀ (fuel : Nat) (f : FeatureFlag) (visited : List Nat)
      (blocking : List FeatureFlag),
      ∀ x ∈ (find_blocking_dependencies g fuel f visited blocking).2,
        x ∈ blocking ∨
          (x.is_enabled = false ∧ x ∈ g.flags ∧ TransDep g f.pk x.pk) := by
  intro fuel
  induction fuel with
  | zero => intro f visited blocking x hx; exact Or.inl hx
  | succ n ih =>
    intro f visited blocking x hx
    have hloop : ∀ (rules : List FeatureFlag),
        (∀ s ∈ rules, s ∈ sourcesOf g f.pk) →
        ∀ (acc : List Nat × List FeatureFlag),
        (∀ y ∈ acc.2, y ∈ blocking ∨
          (y.is_enabled = false ∧ y ∈ g.flags ∧ TransDep g f.pk y.pk)) →
        ∀ y ∈ (rules.foldl (fb_step g n) acc).2, y ∈ blocking ∨
          (y.is_enabled = false ∧ y ∈ g.flags ∧ TransDep g f.pk y.pk) := by
      intro rules
      induction rules with
      | nil => intro _ acc hacc y hy; exact hacc y hy
      | cons s rest ihr =>
        intro hmem acc hacc y hy
        rw [List.foldl_cons] at hy
        refine ihr (fun z hz => hmem z (by simp [hz])) (fb_step g n acc s)
          ?_ y hy
        intro z hz
        unfold fb_step at hz
        split at hz
        · rename_i he
          rcases List.mem_append.mp hz with h1 | h1
          · exact hacc z h1
          · have hzs : z = s := List.mem_singleton.mp h1
            subst hzs
            refine Or.inr ⟨by simpa using he,
              sourcesOf_mem_flags (hmem z (by simp)),
              z.pk, sourcesOf_edge (hmem z (by simp)), Reach.refl _⟩
        · split at hz
          · rcases ih s acc.1 acc.2 z hz with h1 | ⟨h1, h2, c, hc1, hc2⟩
            · exact hacc z h1
            · refine Or.inr ⟨h1, h2, s.pk,
                sourcesOf_edge (hmem s (by simp)), Reach.step hc1 hc2⟩
          · exact hacc z hz
    rw [fb_succ_eq] at hx
    by_cases h1 : f.pk ∈ visited
    · rw [if_pos h1] at hx
      exact Or.inl hx
    · rw [if_neg h1] at hx
      exact hloop _ (fun s hs => hs) (f.pk :: visited, blocking)
        (fun y hy => Or.inl hy) x hx

theorem not_can_be_active_of_reach {g : Graph} (hw : WF g)
    (hac : Acyclic g) :
    ∀ {a b : Nat}, Reach g a b →
      ∀ (fa ft : FeatureFlag), fa ∈ g.flags → fa.pk = a →
        ft ∈ g.flags → ft.pk = b → b ≠ a → is_active g ft = false →
        can_be_active g fa = false := by
  intro a b hr
  induction hr with
  | refl =>
    intro fa ft _ _ _ _ hne _
    exact absurd rfl hne
  | @step x c b2 he hr2 ih =>
    intro fa ft hfa hfapk hft hftpk _ hact
    have hedge : (fa.pk, c) ∈ g.edges := by
      rw [hfapk]
      exact he
    obtain ⟨fc, hcfind, hcpk, hcsrc⟩ := edge_mem_sourcesOf hw hedge
    have hcmem : fc ∈ g.flags := (findFlag_pk hcfind).2
    rw [can_be_active_eq hw hac hfa]
    cases hall : (sourcesOf g fa.pk).all (fun s => is_active g s) with
    | false => rfl
    | true =>
      exfalso
      have hfc_act : is_active g fc = true := List.all_eq_true.mp hall fc hcsrc
      by_cases hcb : c = b2
      · have hft2 : fc = ft := eq_of_pk hw hcmem hft (by rw [hcpk, hftpk, hcb])
        rw [hft2, hact] at hfc_act
        cases hfc_act
      · have hcba : can_be_active g fc = false :=
          ih fc ft hcmem hcpk hft hftpk (fun hh => hcb hh.symm) hact
        unfold is_active at hfc_act
        rw [hcba] at hfc_act
        simp at hfc_act

theorem dependency_clean_cycle {g : Graph} (hw : WF g)
    {dep src : FeatureFlag} (hdep : dep ∈ g.flags) (hsrc : src ∈ g.flags)
    (hne : dep.pk ≠ src.pk) (hr : Reach g src.pk dep.pk) :
    ∃ q, dependency_clean g dep src =
        some (.cycleDetected (dep.title :: src.title :: q)) ∧
      (src.title :: q).getLast? = some dep.title := by
  unfold dependency_clean
  rw [if_neg hne]
  simp only
  rcases hres : find_path_and_detect_cycle g (g.flags.length + 2) src dep [] []
    with ⟨b, v, p⟩
  cases b with
  | false =>
    exfalso
    have := find_path_complete hw hsrc hr
    rw [hres] at this
    cases this
  | true =>
    obtain ⟨q0, t, hq, hhead, hlast, htpk, htm⟩ :=
      find_path_success _ src [] [] v p hsrc hres
    have hp : p = q0 := by simpa using hq
    have ht : t = dep := eq_of_pk hw htm hdep htpk
    cases q0 with
    | nil => cases hhead
    | cons s0 q1 =>
      have hs0 : s0 = src := by simpa using hhead
      subst hs0
      subst hp
      refine ⟨q1.map FeatureFlag.title, ?_, ?_⟩
      · simp
      · have hmap : s0.title :: q1.map FeatureFlag.title =
            (s0 :: q1).map FeatureFlag.title := rfl
        rw [hmap, List.getLast?_map, hlast, ht]
        rfl

theorem dependency_clean_no_cycle_reach {g : Graph} (hw : WF g)
    {dep src : FeatureFlag} (hsrc : src ∈ g.flags)
    (hclean : dependency_clean g dep src = none) :
    ¬ Reach g src.pk dep.pk := by
  intro hr
  unfold dependency_clean at hclean
  by_cases hdspk : dep.pk = src.pk
  · rw [if_pos hdspk] at hclean
    cases hclean
  · rw [if_neg hdspk] at hclean
    simp only at hclean
    rcases hres : find_path_and_detect_cycle g (g.flags.length + 2) src dep
      [] [] with ⟨b, v, p⟩
    rw [hres] at hclean
    have hb : b = true := by
      have hcom := find_path_complete hw hsrc hr
      rw [hres] at hcom
      exact hcom
    subst hb
    obtain ⟨q, t, hq, hhead, _, _, _⟩ :=
      find_path_success _ src [] [] v p hsrc hres
    have hpne : p ≠ [] := by
      rw [hq]
      simpa using ne_nil_of_head_some hhead
    rw [if_pos rfl] at hclean
    rw [if_neg (by simpa using hpne)] at hclean
    cases hclean

theorem add_dependency_acyclic {g : Graph} (hw : WF g) (hac : Acyclic g)
    {d s : FeatureFlag} (hs : s ∈ g.flags) :
    Acyclic (add_dependency g d s).2 := by
  unfold add_dependency
  cases hclean : dependency_full_clean g d s with
  | some e => exact hac
  | none =>
    have hc2 : dependency_clean g d s = none := by
      unfold dependency_full_clean at hclean
      cases hc3 : dependency_clean g d s with
      | some e =>
        rw [hc3] at hclean
        cases hclean
      | none => rfl
    have hnr : ¬ Reach g s.pk d.pk :=
      dependency_clean_no_cycle_reach hw hs hc2
    intro e he hre
    obtain ⟨ea, eb⟩ := e
    rcases List.mem_append.mp he with h1 | h1
    · rcases reach_append_edge hre with h2 | ⟨h2, h3⟩
      · exact hac (ea, eb) h1 h2
      · have h4 : Reach g ea eb := Reach.step h1 (Reach.refl _)
        exact hnr (reach_trans (reach_trans h3 h4) h2)
    · have he2 : (ea, eb) = (d.pk, s.pk) := List.mem_singleton.mp h1
      have hea : ea = d.pk := congrArg Prod.fst he2
      have heb : eb = s.pk := congrArg Prod.snd he2
      rw [hea, heb] at hre
      rcases reach_append_edge hre with h2 | ⟨h2, _⟩
      · exact hnr h2
      · exact hnr h2

theorem feature_flag_toggle_edges (g : Graph) (pk : Nat) :
    (feature_flag_toggle g pk).2.1.edges = g.edges := by
  unfold feature_flag_toggle
  cases hf : findFlag g pk with
  | none => rfl
  | some f =>
    cases hc : featureflag_clean g { f with is_enabled := !f.is_enabled } with
    | some b =>
      simp only [hc]
    | none =>
      simp only [hc]
      rfl

theorem can_be_active_set_enabled (g : Graph) (f : FeatureFlag) (b : Bool) :
    can_be_active g { f with is_enabled := b } = can_be_active g f :=
  rfl

theorem dependency_full_clean_ne_unmet (g : Graph) (d s : FeatureFlag)
    (bs : List String) :
    dependency_full_clean g d s ≠ some (.unmetDependencies bs) := by
  intro h
  unfold dependency_full_clean at h
  cases hclean : dependency_clean g d s with
  | some e =>
    rw [hclean] at h
    injection h with h2
    unfold dependency_clean at hclean
    by_cases hself : d.pk = s.pk
    · rw [if_pos hself] at hclean
      injection hclean with h3
      rw [← h3] at h2
      cases h2
    · rw [if_neg hself] at hclean
      simp only at hclean
      split at hclean
      · split at hclean
        · cases hclean
        · injection hclean with h3
          rw [← h3] at h2
          cases h2
      · cases hclean
  | none =>
    rw [hclean] at h
    split at h
    all_goals simp_all

theorem add_deps_loop_ne_unmet (f : FeatureFlag) :
    ∀ (l : List String) (g : Graph) (bs : List String),
      add_deps_loop f l g ≠ .error (.unmetDependencies bs) := by
  intro l
  induction l with
  | nil =>
    intro g bs h
    cases h
  | cons t rest ih =>
    intro g bs h
    unfold add_deps_loop at h
    split at h
    · injection h with h2
      cases h2
    · rename_i src hfind
      split at h
      · rename_i e hclean
        injection h with h2
        rw [h2] at hclean
        exact dependency_full_clean_ne_unmet _ _ _ _ hclean
      · exact ih _ bs h

theorem nodup_append_singleton {α : Type} {l : List α} {a : α}
    (h : l.Nodup) (ha : a ∉ l) : (l ++ [a]).Nodup := by
  induction l with
  | nil => exact List.nodup_singleton a
  | cons b t ih =>
    rw [List.cons_append, List.nodup_cons]
    rw [List.nodup_cons] at h
    have hab : a ≠ b := fun hh => ha (by simp [hh])
    constructor
    · intro hb
      rcases List.mem_append.mp hb with h1 | h1
      · exact h.1 h1
      · exact hab (List.mem_singleton.mp h1).symm
    · exact ih h.2 (fun hh => ha (by simp [hh]))

theorem foldl_max_bounds (l : List Nat) :
    ∀ a : Nat, a ≤ l.foldl max a ∧ ∀ x ∈ l, x ≤ l.foldl max a := by
  induction l with
  | nil =>
    intro a
    exact ⟨Nat.le_refl a, fun x hx => absurd hx (List.not_mem_nil x)⟩
  | cons b t ih =>
    intro a
    rw [List.foldl_cons]
    obtain ⟨h1, h2⟩ := ih (max a b)
    refine ⟨le_trans (Nat.le_max_left a b) h1, ?_⟩
    intro x hx
    rcases List.mem_cons.mp hx with hx1 | hx1
    · exact le_trans (hx1 ▸ Nat.le_max_right a b) h1
    · exact h2 x hx1

theorem fresh_pk_not_mem (g : Graph) :
    fresh_pk g ∉ g.flags.map FeatureFlag.pk := by
  intro hmem
  have hb := (foldl_max_bounds (g.flags.map FeatureFlag.pk) 0).2 _ hmem
  unfold fresh_pk at hmem
  have : ((g.flags.map FeatureFlag.pk).foldl max 0) + 1 ≤
      (g.flags.map FeatureFlag.pk).foldl max 0 := by
    calc ((g.flags.map FeatureFlag.pk).foldl max 0) + 1 = fresh_pk g := rfl
    _ ≤ (g.flags.map FeatureFlag.pk).foldl max 0 := hb
  omega

theorem add_deps_loop_acyclic (f : FeatureFlag) :
    ∀ (l : List String) (g g2 : Graph), WF g → Acyclic g → f ∈ g.flags →
      add_deps_loop f l g = .ok g2 → Acyclic g2 := by
  intro l
  induction l with
  | nil =>
    intro g g2 _ hac _ h
    injection h with h2
    rw [← h2]
    exact hac
  | cons t rest ih =>
    intro g g2 hw hac hf h
    unfold add_deps_loop at h
    split at h
    · cases h
    · rename_i src hfind
      split at h
      · cases h
      · rename_i hclean
        have hsrc : src ∈ g.flags := List.mem_of_find?_eq_some hfind
        have hacy : Acyclic
            { g with edges := g.edges ++ [(f.pk, src.pk)] } := by
          have h1 := @add_dependency_acyclic g hw hac f src hsrc
          have h2 : (add_dependency g f src).2 =
              { g with edges := g.edges ++ [(f.pk, src.pk)] } := by
            unfold add_dependency
            rw [hclean]
          rwa [h2] at h1
        have hnotmem : (f.pk, src.pk) ∉ g.edges := by
          unfold dependency_full_clean at hclean
          split at hclean
          · cases hclean
          · intro hmem
            rw [if_pos hmem] at hclean
            cases hclean
        have hwf : WF { g with edges := g.edges ++ [(f.pk, src.pk)] } := by
          refine ⟨hw.1, hw.2.1, ?_, ?_⟩
          · intro e he
            rcases List.mem_append.mp he with h1 | h1
            · exact hw.2.2.1 e h1
            · have he2 : e = (f.pk, src.pk) := List.mem_singleton.mp h1
              rw [he2]
              exact ⟨List.mem_map_of_mem _ hf, List.mem_map_of_mem _ hsrc⟩
          · exact nodup_append_singleton hw.2.2.2 hnotmem
        exact ih _ g2 hwf hacy hf h

theorem create_flag_with_dependencies_acyclic {g : Graph} (hw : WF g)
    (hac : Acyclic g) (title : String) (enabled : Bool)
    (srcs : List String) :
    Acyclic (create_flag_with_dependencies g title enabled srcs).2 := by
  unfold create_flag_with_dependencies
  split
  · exact hac
  · rename_i hdup
    split
    · exact hac
    · simp only
      split
      · exact hac
      · rename_i g2 hloop
        have htitle : title ∉ g.flags.map FeatureFlag.title := by
          intro hmem
          apply hdup
          rw [List.any_eq_true]
          obtain ⟨x, hx, hxt⟩ := List.mem_map.mp hmem
          exact ⟨x, hx, by simp [hxt]⟩
        have hwf1 : WF { g with
            flags := g.flags ++ [⟨fresh_pk g, title, enabled⟩] } := by
          refine ⟨?_, ?_, ?_, hw.2.2.2⟩
          · rw [List.map_append]
            simpa using nodup_append_singleton hw.1 (fresh_pk_not_mem g)
          · rw [List.map_append]
            simpa using nodup_append_singleton hw.2.1 htitle
          · intro e he
            obtain ⟨h1, h2⟩ := hw.2.2.1 e he
            rw [List.map_append]
            exact ⟨List.mem_append_left _ h1, List.mem_append_left _ h2⟩
        have hacy1 : Acyclic { g with
            flags := g.flags ++ [⟨fresh_pk g, title, enabled⟩] } :=
          @acyclic_of_edges_eq g
            { g with flags := g.flags ++ [⟨fresh_pk g, title, enabled⟩] }
            rfl hac
        exact add_deps_loop_acyclic _ srcs _ g2 hwf1 hacy1 (by simp) hloop

/-! ### Claims -/

/-- C1.  The spec claims that disabling a flag cascades: with `B`
depending on `A` and `C` depending on `B` (all enabled), disabling `A`
must leave `B` and `C` disabled and emit exactly two `auto_disable`
events.  The code does no such thing: the toggle path
(`FeatureFlagToggleSerializer.update`) never invokes any cascade — the
only cascade code, `tasks.auto_disabler`, is an unparseable prototype
never called from a toggle — so after disabling `A`, flags `B` and `C`
are still `enabled=true`, no `auto_disable` event exists, and the call
dies with an `AttributeError` after committing the flip.  This theorem
evaluates the model at that failing input. -/
theorem claim_C1_toggle_no_cascade :
    feature_flag_toggle chainGraph 1 =
      (.attribute_error,
        ⟨[⟨1, "A", false⟩, ⟨2, "B", true⟩, ⟨3, "C", true⟩],
          [(2, 1), (3, 2)]⟩,
        []) := by
  decide

/-- C2.  For every well-formed acyclic graph state and every stored flag,
`is_active` satisfies the spec's recursive definition: a flag is active
iff its own `enabled` bit is set and every direct dependency source is
active; a flag with no outgoing dependency edges is active iff it is
enabled (the `all` over an empty source list is `true`). -/
theorem claim_C2_is_active_fixpoint {g : Graph} (hw : WF g)
    (hac : Acyclic g) {f : FeatureFlag} (hf : f ∈ g.flags) :
    is_active g f =
      (f.is_enabled && (sourcesOf g f.pk).all (fun s => is_active g s)) := by
  have h1 : is_active g f = (f.is_enabled && can_be_active g f) := rfl
  rw [h1, can_be_active_eq hw hac hf]

/-- Witness for C2 on the diamond graph, at its top flag. -/
theorem claim_C2_witness :
    is_active diamondGraph ⟨4, "A", true⟩ =
      ((⟨4, "A", true⟩ : FeatureFlag).is_enabled &&
        (sourcesOf diamondGraph 4).all (fun s => is_active diamondGraph s)) :=
  claim_C2_is_active_fixpoint (by decide)
    (acyclic_of_decreasing _ (by decide)) (by decide)

/-- C3.  Whenever the proposed edge `dependent -> source` would close a
cycle (the source already reaches the dependent), `AddDependency` is
rejected with `CycleDetected` and the edge store is unchanged
(`list_dependencies` identical); moreover the edge set stays acyclic
after every engine operation that mutates the store: after any
`add_dependency`, after any toggle, and after any
`create_flag_with_dependencies` (whose edge insertions all pass the same
`Dependency.full_clean`).  The read-only operations (`GetFlag`,
`ListFlags`, `ListDependencies`) do not touch the store. -/
theorem claim_C3_cycle_rejected {g : Graph} (hw : WF g) (hac : Acyclic g)
    {dep src : FeatureFlag} (hdep : dep ∈ g.flags) (hsrc : src ∈ g.flags)
    (hne : dep.pk ≠ src.pk) (hr : Reach g src.pk dep.pk) :
    (∃ parts, add_dependency g dep src =
      (.error (.cycleDetected parts), g)) ∧
    list_dependencies (add_dependency g dep src).2 = list_dependencies g ∧
    (∀ d2 s2 : FeatureFlag, s2 ∈ g.flags →
      Acyclic (add_dependency g d2 s2).2) ∧
    (∀ pk, Acyclic (feature_flag_toggle g pk).2.1) ∧
    (∀ (title2 : String) (enabled2 : Bool) (srcs2 : List String),
      Acyclic (create_flag_with_dependencies g title2 enabled2 srcs2).2) := by
  obtain ⟨q, hcy, _⟩ := dependency_clean_cycle hw hdep hsrc hne hr
  have hfull : dependency_full_clean g dep src =
      some (.cycleDetected (dep.title :: src.title :: q)) := by
    unfold dependency_full_clean
    rw [hcy]
  have hadd : add_dependency g dep src =
      (.error (.cycleDetected (dep.title :: src.title :: q)), g) := by
    unfold add_dependency
    rw [hfull]
  refine ⟨⟨_, hadd⟩, by rw [hadd], ?_, ?_, ?_⟩
  · intro d2 s2 hs2
    exact add_dependency_acyclic hw hac hs2
  · intro pk
    exact acyclic_of_edges_eq (feature_flag_toggle_edges g pk).symm hac
  · intro title2 enabled2 srcs2
    exact create_flag_with_dependencies_acyclic hw hac title2 enabled2 srcs2

/-- Witness for C3: `A` depends on `B`; the attempt `B -> A` is
rejected and the store is unchanged. -/
theorem claim_C3_witness :
    (∃ parts, add_dependency pairGraph ⟨1, "B", true⟩ ⟨2, "A", true⟩ =
      (.error (.cycleDetected parts), pairGraph)) ∧
    list_dependencies
        (add_dependency pairGraph ⟨1, "B", true⟩ ⟨2, "A", true⟩).2 =
      list_dependencies pairGraph ∧
    (∀ d2 s2 : FeatureFlag, s2 ∈ pairGraph.flags →
      Acyclic (add_dependency pairGraph d2 s2).2) ∧
    (∀ pk, Acyclic (feature_flag_toggle pairGraph pk).2.1) ∧
    (∀ (title2 : String) (enabled2 : Bool) (srcs2 : List String),
      Acyclic
        (create_flag_with_dependencies pairGraph title2 enabled2 srcs2).2) :=
  claim_C3_cycle_rejected (by decide) (acyclic_of_decreasing _ (by decide))
    (by decide) (by decide) (by decide)
    (Reach.step (by decide) (Reach.refl 1))

/-- C4.  Toggling a disabled flag to enabled fails with the
unmet-dependencies validation error whenever some direct or transitive
dependency is not active, and on that failure the flag and edge stores
are returned exactly as they were (and no event is recorded). -/
theorem claim_C4_toggle_unmet {g : Graph} (hw : WF g) (hac : Acyclic g)
    {f : FeatureFlag} (hf : f ∈ g.flags) (hen : f.is_enabled = false)
    (hblock : ∃ t ∈ g.flags,
      Reach g f.pk t.pk ∧ t.pk ≠ f.pk ∧ is_active g t = false) :
    ∃ bs, feature_flag_toggle g f.pk = (.unmet bs, g, []) := by
  obtain ⟨t, htm, hrt, hnept, hact⟩ := hblock
  have hcba : can_be_active g f = false :=
    not_can_be_active_of_reach hw hac hrt f t hf rfl htm rfl hnept hact
  have hfind := findFlag_of_mem hw hf
  have h2 : can_be_active g { f with is_enabled := !f.is_enabled } =
      false := by
    rw [can_be_active_set_enabled]
    exact hcba
  have hcond : (({ f with is_enabled := !f.is_enabled }).is_enabled &&
      !can_be_active g { f with is_enabled := !f.is_enabled }) = true := by
    rw [h2]
    simp [hen]
  have hclean : featureflag_clean g { f with is_enabled := !f.is_enabled } =
      some ((find_blocking_dependencies g (g.flags.length + 2)
        { f with is_enabled := !f.is_enabled } [] []).2.map
          FeatureFlag.title) := by
    unfold featureflag_clean
    rw [if_pos hcond]
  refine ⟨(find_blocking_dependencies g (g.flags.length + 2)
    { f with is_enabled := !f.is_enabled } [] []).2.map FeatureFlag.title, ?_⟩
  unfold feature_flag_toggle
  rw [hfind]
  simp only [hclean]

/-- Witness for C4: enabling `B` while its dependency `A` is disabled. -/
theorem claim_C4_witness :
    ∃ bs, feature_flag_toggle blockedPairGraph 2 =
      (.unmet bs, blockedPairGraph, []) :=
  @claim_C4_toggle_unmet blockedPairGraph (by decide)
    (acyclic_of_decreasing _ (by decide)) ⟨2, "B", false⟩ (by decide)
    (by decide)
    ⟨⟨1, "A", false⟩, by decide,
      Reach.step (by decide) (Reach.refl 1), by decide, by decide⟩

/-- C5.  The spec claims no operation raises an untyped exception.  The
code's toggle path always does after a successful save:
`FeatureFlagToggleSerializer.update` builds its audit record with
`AuditLog.AuditLogType.FLAG_TOGGLE`, which does not exist
(`AuditLogType` has only `CREATE`/`TOGGLE`/`AUTO_DISABLE`/
`DEPENDENCY_ADD`), and then references an undefined variable `reason` —
so every committed toggle ends in an `AttributeError` after the flip is
persisted.  This theorem evaluates the model at such an input. -/
theorem claim_C5_toggle_untyped_crash :
    feature_flag_toggle singleFlagGraph 1 =
      (.attribute_error, ⟨[⟨1, "a", false⟩], []⟩, []) := by
  decide

/-- C6.  Whenever an edge insertion is rejected because a cycle would
form, the `CycleDetected` payload is the title sequence from the
dependent through the source and back to the dependent: it starts with
`dependent.title`, continues with `source.title`, and its final element
is `dependent.title` again. -/
theorem claim_C6_cycle_path_payload {g : Graph} (hw : WF g)
    {dep src : FeatureFlag} (hdep : dep ∈ g.flags) (hsrc : src ∈ g.flags)
    (hne : dep.pk ≠ src.pk) (hr : Reach g src.pk dep.pk) :
    ∃ mid, dependency_clean g dep src =
        some (.cycleDetected (dep.title :: src.title :: mid)) ∧
      (src.title :: mid).getLast? = some dep.title :=
  dependency_clean_cycle hw hdep hsrc hne hr

/-- Witness for C6: with `A -> B` present, the attempt `B -> A` reports
the payload whose rendering is `B -> A -> B`. -/
theorem claim_C6_witness :
    (∃ mid, dependency_clean pairGraphAB ⟨1, "B", true⟩ ⟨2, "A", true⟩ =
        some (.cycleDetected (("B" : String) :: "A" :: mid)) ∧
      (("A" : String) :: mid).getLast? = some "B") ∧
    dependency_clean pairGraphAB ⟨1, "B", true⟩ ⟨2, "A", true⟩ =
      some (.cycleDetected ["B", "A", "B"]) ∧
    render_cycle ["B", "A", "B"] = "B -> A -> B" :=
  ⟨claim_C6_cycle_path_payload (by decide) (by decide) (by decide)
      (by decide) (Reach.step (by decide) (Reach.refl 1)),
    by decide, by decide⟩

/-- C7, counterexample.  The claim says creating an enabled flag whose
listed source is not active fails with `UnmetDependencies` and commits
nothing.  In the code `FeatureFlag.save` skips `full_clean` when `pk` is
`None` and `FeatureFlag.clean` returns early for unsaved rows, so the
creation succeeds: with disabled source `X`, creating enabled `Y`
depending on `X` returns the new flag and commits both the flag and the
edge. -/
theorem claim_C7_counterexample :
    create_flag_with_dependencies disabledSourceGraph "Y" true ["X"] =
      (.ok ⟨2, "Y", true⟩,
        ⟨[⟨1, "X", false⟩, ⟨2, "Y", true⟩], [(2, 1)]⟩) ∧
    is_active disabledSourceGraph ⟨1, "X", false⟩ = false := by
  decide

/-- C7, amended.  `CreateFlagWithDependencies` never fails with
`UnmetDependencies` on any input: the create path performs no
enabled-versus-dependency validation at all (its possible failures are
duplicate title, unknown source, self-dependency, cycle, duplicate
edge). -/
theorem claim_C7_create_never_unmet (g : Graph) (title : String)
    (enabled : Bool) (srcs : List String) (bs : List String) :
    (create_flag_with_dependencies g title enabled srcs).1 ≠
      .error (.unmetDependencies bs) := by
  intro hcon
  unfold create_flag_with_dependencies at hcon
  split at hcon
  · injection hcon with h2
    cases h2
  · split at hcon
    · injection hcon with h2
      cases h2
    · simp only at hcon
      split at hcon
      · rename_i e hloop
        injection hcon with h2
        rw [h2] at hloop
        exact add_deps_loop_ne_unmet _ _ _ _ hloop
      · cases hcon

/-- C8, counterexample.  The claim says the reported blockers are
deduplicated by flag id.  They are not: in the diamond where `A` depends
on `B` and `C`, both depending on the disabled `D`, enabling `A` reports
`D` twice — `_find_blocking_dependencies` adds only recursed-into flags
to its visited set, never the disabled flags it appends. -/
theorem claim_C8_counterexample :
    (feature_flag_toggle blockedDiamondGraph 4).1 = .unmet ["D", "D"] ∧
    ¬ (["D", "D"] : List String).Nodup := by
  decide

/-- C8, amended.  Every entry of the blocking list collected by
`_find_blocking_dependencies` is a stored flag whose own `enabled` bit
is false and which is a direct or transitive dependency of the flag
being validated; the list is however not deduplicated, and a disabled
flag reached along several dependency paths appears once per path. -/
theorem claim_C8_blockers_sound (g : Graph) (fuel : Nat)
    (f : FeatureFlag) :
    ∀ x ∈ (find_blocking_dependencies g fuel f [] []).2,
      x.is_enabled = false ∧ x ∈ g.flags ∧ TransDep g f.pk x.pk := by
  intro x hx
  rcases find_blocking_sound fuel f [] [] x hx with h | h
  · cases h
  · exact h

/-- Witness for C8 on the blocked diamond: the reported flag `D` is
disabled and a transitive dependency of `A`. -/
theorem claim_C8_witness :
    (⟨1, "D", false⟩ : FeatureFlag).is_enabled = false ∧
    (⟨1, "D", false⟩ : FeatureFlag) ∈ blockedDiamondGraph.flags ∧
    TransDep blockedDiamondGraph 4 1 :=
  claim_C8_blockers_sound blockedDiamondGraph 6 ⟨4, "A", false⟩
    ⟨1, "D", false⟩ (by decide)

/-- C9.  For every flag, adding a dependency of the flag on itself is
rejected with the dedicated self-dependency error — a kind distinct from
`CycleDetected` — before the cycle search is reached (the equality test
`dependent == source` is the first statement of `Dependency.clean`), and
the edge store is unchanged. -/
theorem claim_C9_self_dependency (g : Graph) (f : FeatureFlag) :
    add_dependency g f f = (.error .selfDependency, g) ∧
    list_dependencies (add_dependency g f f).2 = list_dependencies g ∧
    ∀ parts, Err.selfDependency ≠ Err.cycleDetected parts := by
  have h1 : dependency_clean g f f = some .selfDependency := by
    unfold dependency_clean
    rw [if_pos rfl]
  have h2 : dependency_full_clean g f f = some .selfDependency := by
    unfold dependency_full_clean
    rw [h1]
  have h3 : add_dependency g f f = (.error .selfDependency, g) := by
    unfold add_dependency
    rw [h2]
  refine ⟨h3, by rw [h3], ?_⟩
  intro parts h
  cases h

/-- C10.  On any well-formed store — cyclic historical data included —
the cycle search stabilizes once the fuel reaches the number of flags
plus two, which is the shallow-embedding statement that the Python
recursion terminates: every call chain expands each node at most once
because the shared visited set grows at every expansion, and an
already-visited node returns immediately (so the visited set stays
duplicate-free). -/
theorem claim_C10_search_terminates (g : Graph)
    (cur tgt : FeatureFlag) (hc : cur ∈ g.flags) :
    (∀ fuel, g.flags.length + 2 ≤ fuel →
      find_path_and_detect_cycle g fuel cur tgt [] [] =
        find_path_and_detect_cycle g (g.flags.length + 2) cur tgt [] []) ∧
    ((find_path_and_detect_cycle g (g.flags.length + 2)
        cur tgt [] []).2.1).Nodup := by
  constructor
  · intro fuel hge
    refine (find_path_stable_ge hc ?_ hge).symm
    rw [unvisitedPks_nil]
    omega
  · exact find_path_nodup _ cur [] [] List.nodup_nil

/-- Witness for C10 on a two-node dependency cycle. -/
theorem claim_C10_witness :
    find_path_and_detect_cycle cyclicGraph 10 ⟨1, "A", true⟩
        ⟨2, "B", true⟩ [] [] =
      find_path_and_detect_cycle cyclicGraph (cyclicGraph.flags.length + 2)
        ⟨1, "A", true⟩ ⟨2, "B", true⟩ [] [] ∧
    ((find_path_and_detect_cycle cyclicGraph (cyclicGraph.flags.length + 2)
        ⟨1, "A", true⟩ ⟨2, "B", true⟩ [] []).2.1).Nodup :=
  ⟨(claim_C10_search_terminates cyclicGraph ⟨1, "A", true⟩ ⟨2, "B", true⟩
      (by decide)).1 10 (by decide),
    (claim_C10_search_terminates cyclicGraph ⟨1, "A", true⟩ ⟨2, "B", true⟩
      (by decide)).2⟩

/-- Witness for the amended C7 at a concrete input. -/
theorem claim_C7_witness :
    (create_flag_with_dependencies disabledSourceGraph "Z" true ["X"]).1 ≠
      .error (.unmetDependencies []) :=
  claim_C7_create_never_unmet disabledSourceGraph "Z" true ["X"] []

/-- Witness for C9 at a concrete store and flag. -/
theorem claim_C9_witness :
    add_dependency singleFlagGraph ⟨1, "a", true⟩ ⟨1, "a", true⟩ =
      (.error .selfDependency, singleFlagGraph) ∧
    list_dependencies
        (add_dependency singleFlagGraph ⟨1, "a", true⟩ ⟨1, "a", true⟩).2 =
      list_dependencies singleFlagGraph ∧
    ∀ parts, Err.selfDependency ≠ Err.cycleDetected parts :=
  claim_C9_self_dependency singleFlagGraph ⟨1, "a", true⟩
